import Mathlib

/-!
Verification development for the deIdentifier pipeline.

Text is modelled as `List Char` (`Str` below), mirroring Python string
semantics for the ASCII inputs the pipeline handles.  The external random
sources (the faker library and the random module) are modelled as an oracle
stream of draws (`Gen`), one bundle consumed per cache-missing generator
call.  Fallible code paths return `Option`.
-/

/-- Program text, as a list of characters. -/
abbrev Str := List Char

/-- Python str.lower (ASCII range). -/
def strLower (s : Str) : Str := s.map Char.toLower

/-- Python str.upper (ASCII range). -/
def strUpper (s : Str) : Str := s.map Char.toUpper

/-- Python substring membership: needle in hay. -/
def containsSub (needle : Str) : Str → Bool
  | [] => needle.isEmpty
  | c :: t => List.isPrefixOf needle (c :: t) || containsSub needle t

/-- Python any(tok in s for tok in toks). -/
def containsAny (s : Str) (toks : List Str) : Bool := toks.any (fun t => containsSub t s)

/-- Whitespace recognized by Python str.split and str.strip (ASCII part). -/
def pyIsSpace (c : Char) : Bool :=
  c = ' ' || c = '\t' || c = '\n' || c = '\r' || c = '\x0b' || c = '\x0c'

/-- Python str.strip with no arguments. -/
def pyStrip (s : Str) : Str :=
  ((s.dropWhile pyIsSpace).reverse.dropWhile pyIsSpace).reverse

/-- Worker for `pySplitWs`, accumulating the current (reversed) token. -/
def splitWsGo : Str → Str → List Str
  | [], acc => if acc.isEmpty then [] else [acc.reverse]
  | c :: cs, acc =>
    if pyIsSpace c then
      if acc.isEmpty then splitWsGo cs [] else acc.reverse :: splitWsGo cs []
    else splitWsGo cs (c :: acc)

/-- Python str.split with no separator: split on whitespace runs, dropping empties. -/
def pySplitWs (s : Str) : List Str := splitWsGo s []

/-- Python s.split with separator a single newline, keeping empty pieces. -/
def splitNl : Str → List Str
  | [] => [[]]
  | c :: cs =>
    if c = '\n' then [] :: splitNl cs
    else
      match splitNl cs with
      | [] => [[c]]
      | h :: t => (c :: h) :: t

/-- Python str.replace, leftmost non-overlapping occurrences; fuel-driven so
that the kernel can evaluate it (fuel is the length of the scanned string). -/
def pyReplaceFuel (pat repl : Str) : Nat → Str → Str
  | _, [] => []
  | 0, s => s
  | fuel + 1, c :: cs =>
    if List.isPrefixOf pat (c :: cs) && !pat.isEmpty then
      repl ++ pyReplaceFuel pat repl fuel (List.drop (pat.length - 1) cs)
    else
      c :: pyReplaceFuel pat repl fuel cs

/-- Python str.replace(pat, repl). -/
def pyReplace (pat repl s : Str) : Str := pyReplaceFuel pat repl s.length s

/-- Lookup in an insertion-ordered association list (Python dict read). -/
def assocFind {α : Type} : List (Str × α) → Str → Option α
  | [], _ => none
  | (k, v) :: rest, key => if k = key then some v else assocFind rest key

/-- Python dict assignment d[k] = v: update in place if present, else append. -/
def dictInsert {α : Type} (k : Str) (v : α) : List (Str × α) → List (Str × α)
  | [] => [(k, v)]
  | (k', v') :: rest => if k' = k then (k, v) :: rest else (k', v') :: dictInsert k v rest

/-- Decimal rendering of a natural number (Python str(n) for non-negative n). -/
def natStr (n : Nat) : Str := Nat.toDigits 10 n

/-- strftime %d: zero-padded two-digit day. -/
def pad2 (n : Nat) : Str := if n < 10 then '0' :: natStr n else natStr n

/-- SimplePIIFaker._clean_for_email: re.sub removes every character outside
a-z from the lowered name part. -/
def cleanForEmail (s : Str) : Str :=
  (strLower s).filter (fun c => decide ('a' ≤ c ∧ c ≤ 'z'))

/-- Generic-fallback label normalization: label.upper().replace(space,
underscore), then every character outside A-Z, 0-9, underscore replaced
by an underscore. -/
def safeLabel (label : Str) : Str :=
  (pyReplace " ".data "_".data (strUpper label)).map
    (fun c => if ('A' ≤ c ∧ c ≤ 'Z') ∨ ('0' ≤ c ∧ c ≤ '9') ∨ c = '_' then c else '_')

/-- One generator call's worth of fresh draws from the external random
sources (faker methods and the random module). -/
structure Gen where
  nameMale : Str
  nameFemale : Str
  name : Str
  email : Str
  address : Str
  deaLetters : Str
  passLetter : Char
  specialty : Fin 5
  dom5 : Fin 5
  dom3 : Fin 3
  state10 : Fin 10
  state7 : Fin 7
  dobMonth : Fin 12
  insName : Fin 9
  aadhaarDigit : Nat → Fin 10
  phone : Nat
  hospId : Nat
  patId : Nat
  mrn : Nat
  polId : Nat
  memId : Nat
  provId : Nat
  npi : Nat
  medLic : Nat
  deaNum : Nat
  dobDay : Nat
  dobYear : Nat
  cc4 : Nat
  passNum : Nat
  dlNum : Nat

/-- Mutable state of one SimplePIIFaker instance: the replacement cache,
the current patient-name anchor, and a counter indexing the draw stream. -/
structure FakerState where
  cache : List (Str × Str)
  anchor : Option Str
  ctr : Nat
deriving DecidableEq

/-- Male-indicating honorific substrings checked by the name branch. -/
def maleTitles : List Str := ["mr.".data, "mr".data, "shri".data, "sri".data]

/-- Female or formal honorific substrings checked by the name branch. -/
def femaleTitles : List Str :=
  ["mrs.".data, "ms.".data, "miss".data, "smt".data, "dr.".data]

/-- Fixed specialty vocabulary of the doctor branch. -/
def specialtiesList : List Str :=
  ["Cardiologist".data, "Neurologist".data, "Orthopedist".data,
   "Dermatologist".data, "Pediatrician".data]

/-- Email domain vocabulary used when the anchor has at least two tokens. -/
def domain5 : List Str :=
  ["example.com".data, "example.org".data, "test.com".data,
   "sample.org".data, "demo.net".data]

/-- Email domain vocabulary used when the anchor has exactly one token. -/
def domain3 : List Str := ["example.com".data, "example.org".data, "test.com".data]

/-- State codes for the medical-license branch. -/
def stateCodes10 : List Str :=
  ["MH".data, "DL".data, "KA".data, "TN".data, "UP".data,
   "GJ".data, "RJ".data, "WB".data, "AP".data, "MP".data]

/-- State codes for the driver-license branch. -/
def stateCodes7 : List Str :=
  ["DL".data, "MH".data, "KA".data, "TN".data, "UP".data, "GJ".data, "RJ".data]

/-- Words matched against the original value by the insurance branch. -/
def insuranceWords : List Str :=
  ["insurance".data, "assurance".data, "life".data,
   "general".data, "health".data, "medical".data]

/-- Fixed vocabulary of plausible insurer names. -/
def insuranceNames : List Str :=
  ["Apollo Munich Health Insurance".data, "HDFC Life Insurance".data,
   "Max Life Insurance".data, "SBI Life Insurance".data,
   "ICICI Prudential Life Insurance".data, "Bajaj Allianz Life Insurance".data,
   "LIC of India".data, "Star Health Insurance".data, "New India Assurance".data]

/-- Full month names for strftime %B. -/
def monthNames : List Str :=
  ["January".data, "February".data, "March".data, "April".data, "May".data,
   "June".data, "July".data, "August".data, "September".data, "October".data,
   "November".data, "December".data]

/-- SimplePIIFaker._generate_aadhaar: twelve random digits concatenated. -/
def genAadhaar (d : Nat → Fin 10) : Str :=
  ((List.range 12).map (fun i => natStr (d i).val)).flatten

/-- The replacement-cache key: label, a colon, the original value. -/
def mkKey (label value : Str) : Str := label ++ ":".data ++ value

/-- Label/value dispatch of SimplePIIFaker.generate_fake_value, on a cache
miss.  Returns the fake value and the new anchor, or none on the one
unhandled path (email with an anchor that splits into zero tokens, where
the source raises IndexError). -/
def genBranch (g : Gen) (anchor0 : Option Str) (label value : Str) :
    Option (Str × Option Str) :=
  let ll := strLower label
  if containsSub "patient name".data ll || containsSub "name".data ll then
    let fv :=
      if containsAny (strLower value) maleTitles then g.nameMale
      else if containsAny (strLower value) femaleTitles then
        if containsSub "dr.".data (strLower value) then "Dr. ".data ++ g.name
        else g.nameFemale
      else g.name
    let anc :=
      if containsSub "patient name".data ll || ll == "name".data then some fv else anchor0
    some (fv, anc)
  else if containsSub "doctor".data ll || containsSub "primary doctor".data ll
      || containsSub "physician".data ll then
    some ("Dr. ".data ++ g.name ++ ", ".data ++ specialtiesList.getD g.specialty.val [],
      anchor0)
  else if containsSub "email".data ll then
    match anchor0 with
    | some anc =>
      match pySplitWs (pyReplace "dr. ".data [] (strLower anc)) with
      | [] => none
      | p :: ps =>
        if ps.isEmpty then
          some (cleanForEmail p ++ "@".data ++ domain3.getD g.dom3.val [], anchor0)
        else
          some (cleanForEmail p ++ ".".data ++ cleanForEmail (List.getLastD ps p)
            ++ "@".data ++ domain5.getD g.dom5.val [], anchor0)
    | none => some (g.email, anchor0)
  else if containsSub "phone number".data ll || containsSub "mobile number".data ll then
    some ("+91-".data ++ natStr g.phone, anchor0)
  else if containsSub "address".data ll || containsSub "location".data ll then
    some (pyReplace "\n".data ", ".data g.address, anchor0)
  else if containsSub "hospital id".data ll then
    some ("HOSP-".data ++ natStr g.hospId, anchor0)
  else if containsSub "patient id".data ll then
    some ("PAT-".data ++ natStr g.patId, anchor0)
  else if containsSub "medical record number".data ll || containsSub "mrn".data ll then
    some ("MRN".data ++ natStr g.mrn, anchor0)
  else if containsSub "insurance id".data ll || containsSub "policy number".data ll then
    some ("POL-".data ++ natStr g.polId, anchor0)
  else if containsSub "member id".data ll || containsSub "subscriber id".data ll then
    some ("MEM-".data ++ natStr g.memId, anchor0)
  else if containsSub "provider id".data ll then
    some ("PROV-".data ++ natStr g.provId, anchor0)
  else if containsSub "npi number".data ll then
    some (natStr g.npi, anchor0)
  else if containsSub "medical license".data ll || containsSub "license number".data ll then
    some (stateCodes10.getD g.state10.val [] ++ "MED".data ++ natStr g.medLic, anchor0)
  else if containsSub "dea number".data ll then
    some (strUpper g.deaLetters ++ natStr g.deaNum, anchor0)
  else if containsSub "date of birth".data ll || containsSub "dob".data ll
      || containsSub "birth".data ll then
    some (pad2 g.dobDay ++ " ".data ++ monthNames.getD g.dobMonth.val []
      ++ " ".data ++ natStr g.dobYear, anchor0)
  else if containsSub "credit card".data ll then
    some ("****-****-****-".data ++ natStr g.cc4, anchor0)
  else if containsSub "ssn".data ll || containsSub "social security".data ll
      || containsSub "aadhaar".data ll then
    some (genAadhaar g.aadhaarDigit, anchor0)
  else if containsSub "passport".data ll then
    some (g.passLetter.toUpper :: natStr g.passNum, anchor0)
  else if containsSub "driver license".data ll || containsSub "driving licence".data ll then
    some (stateCodes7.getD g.state7.val [] ++ natStr g.dlNum, anchor0)
  else if containsAny (strLower value) insuranceWords then
    some (insuranceNames.getD g.insName.val [], anchor0)
  else
    some ("[FAKE_".data ++ safeLabel label ++ "]".data, anchor0)

/-- SimplePIIFaker.generate_fake_value: consult the replacement cache,
dispatch on a miss, cache the result.  gs is the random draw stream,
indexed by st.ctr. -/
def generateFakeValue (gs : Nat → Gen) (st : FakerState) (label value : Str) :
    Option (Str × FakerState) :=
  match assocFind st.cache (mkKey label value) with
  | some v => some (v, st)
  | none =>
    match genBranch (gs st.ctr) st.anchor label value with
    | none => none
    | some (fv, anc) =>
      some (fv,
        { cache := st.cache ++ [(mkKey label value, fv)], anchor := anc, ctr := st.ctr + 1 })

/-- A value of the entity mapping: one string or a list of strings. -/
inductive Val where
  | s : Str → Val
  | l : List Str → Val
deriving DecidableEq

/-- The list comprehension over a list-shaped entity value, threading state
(a raised fault propagates as none). -/
def replaceValueList (gs : Nat → Gen) (label : Str) :
    FakerState → List Str → Option (List Str × FakerState)
  | st, [] => some ([], st)
  | st, v :: vs =>
    (generateFakeValue gs st label v).bind fun p =>
      (replaceValueList gs label p.2 vs).bind fun q => some (p.1 :: q.1, q.2)

/-- Per-entry replacement: scalar values get a scalar replacement, list
values an element-wise one. -/
def replaceEntry (gs : Nat → Gen) (st : FakerState) (label : Str) :
    Val → Option (Val × FakerState)
  | Val.s v => (generateFakeValue gs st label v).bind fun p => some (Val.s p.1, p.2)
  | Val.l vs => (replaceValueList gs label st vs).bind fun q => some (Val.l q.1, q.2)

/-- The first-pass predicate of replace_pii_json:
'patient name' in label_lower or label_lower == 'name'. -/
def isNameKey (label : Str) : Bool :=
  containsSub "patient name".data (strLower label) || strLower label == "name".data

/-- Second loop of replace_pii_json over the whole mapping, skipping a
name label already present in the accumulated fake mapping. -/
def secondPass (gs : Nat → Gen) :
    FakerState → List (Str × Val) → List (Str × Val) →
    Option (List (Str × Val) × FakerState)
  | st, [], acc => some (acc, st)
  | st, (label, v) :: rest, acc =>
    if isNameKey label && (assocFind acc label).isSome then
      secondPass gs st rest acc
    else
      (replaceEntry gs st label v).bind fun r =>
        secondPass gs r.2 rest (dictInsert label r.1 acc)

/-- SimplePIIFaker.replace_pii_json: reset the anchor, process the first
patient/name label (if any) and record the anchor from its fake value,
then process the remaining labels in mapping order. -/
def replacePiiJson (gs : Nat → Gen) (st : FakerState) (m : List (Str × Val)) :
    Option (List (Str × Val) × FakerState) :=
  match m.find? (fun e => isNameKey e.1) with
  | none => secondPass gs { st with anchor := none } m []
  | some e =>
    (replaceEntry gs { st with anchor := none } e.1 e.2).bind fun r =>
      secondPass gs
        { r.2 with anchor :=
            match r.1 with
            | Val.s sv => some sv
            | Val.l [] => r.2.anchor
            | Val.l (sv :: _) => some sv }
        m (dictInsert e.1 r.1 [])

/-- One step of the collapsing loop in CleanPIIDetector.extract_pii_from_text:
first occurrence of a label stored as a scalar, a second promotes to a
two-element list, later ones append. -/
def addEntity (m : List (Str × Val)) (label text : Str) : List (Str × Val) :=
  match assocFind m label with
  | some (Val.l xs) => dictInsert label (Val.l (xs ++ [text])) m
  | some (Val.s sv) => dictInsert label (Val.l [sv, text]) m
  | none => m ++ [(label, Val.s text)]

/-- CleanPIIDetector.extract_pii_from_text: normalize the detection
oracle's flat entity list into the per-label mapping. -/
def normalizeEntities (es : List (Str × Str)) : List (Str × Val) :=
  es.foldl (fun m e => addEntity m e.1 e.2) []

/-- The values a label carries in a mapping, flattened to a list. -/
def valsAt (m : List (Str × Val)) (label : Str) : List Str :=
  match assocFind m label with
  | none => []
  | some (Val.s sv) => [sv]
  | some (Val.l xs) => xs

/-- Shape agreement between an input entity value and its replacement:
scalar for scalar, list of equal length for list. -/
def ShapeEq : Val → Val → Prop
  | Val.s _, Val.s _ => True
  | Val.l a, Val.l b => a.length = b.length
  | _, _ => False

/-- The error prefix callers test with startswith. -/
def callerDetectsError (t : Str) : Bool := List.isPrefixOf "Error:".data t

/-- extract_text result for a missing file. -/
def fileNotFoundError (p : Str) : Str :=
  "Error: File '".data ++ p ++ "' not found".data

/-- extract_text result for an unsupported extension. -/
def unsupportedFormatError (e : Str) : Str :=
  "Error: Unsupported file format '".data ++ e ++ "'".data

/-- extract_text result when a dispatched strategy raises. -/
def processingError (nm msg : Str) : Str :=
  "Error processing ".data ++ nm ++ ": ".data ++ msg

/-- _extract_from_image result when OCR raises. -/
def ocrError (msg : Str) : Str := "OCR Error: ".data ++ msg

/-- _extract_from_pdf result when rasterization or page OCR raises. -/
def pdfOcrFailedError (msg : Str) : Str := "PDF OCR failed: ".data ++ msg

/-- _extract_from_pdf result when direct extraction raises. -/
def pdfProcessingError (msg : Str) : Str := "Error processing PDF: ".data ++ msg

/-- _extract_from_word failure result. -/
def wordProcessingError (msg : Str) : Str :=
  "Error processing Word document: ".data ++ msg

/-- _extract_from_excel failure result. -/
def excelProcessingError (msg : Str) : Str :=
  "Error processing Excel file: ".data ++ msg

/-- _extract_from_zip failure result. -/
def zipProcessingError (msg : Str) : Str :=
  "Error processing ZIP file: ".data ++ msg

/-- The ZIP member loop keeps a member's text when it does not start with
the tested prefix and strips to something non-empty. -/
def zipMemberKept (t : Str) : Bool := !(callerDetectsError t) && !(pyStrip t).isEmpty

/-- Result of _extract_from_pdf: the text, and on how many rasterized
pages OCR ran. -/
structure PdfResult where
  text : Str
  ocrPagesUsed : Nat
deriving DecidableEq

/-- Best-of-configs OCR accumulation: keep the output whose stripped text
is strictly longer than the best so far (a raising config is modelled by
an empty output, which the fold likewise leaves behind). -/
def bestOcr (outs : List Str) : Str :=
  outs.foldl (fun best t => if (pyStrip best).length < (pyStrip t).length then t else best) []

/-- Collapse OCR output to its non-blank stripped lines joined by newlines. -/
def cleanOcrLines (s : Str) : Str :=
  List.intercalate "\n".data (((splitNl s).map pyStrip).filter (fun l => !l.isEmpty))

/-- UniversalTextExtractor._extract_from_pdf over a document given as its
per-page direct text layers.  rasterErr is the in-model image of a
convert_from_path fault; ocrOut i k is the OCR output for rasterized page
i under configuration k. -/
def extractFromPdf (pages : List Str) (rasterErr : Option Str)
    (ocrOut : Nat → Fin 2 → Str) : PdfResult :=
  if !((pages.map pyStrip).filter fun t => !t.isEmpty).isEmpty then
    { text := List.intercalate "\n\n".data ((pages.map pyStrip).filter fun t => !t.isEmpty),
      ocrPagesUsed := 0 }
  else
    match rasterErr with
    | some e => { text := pdfOcrFailedError e, ocrPagesUsed := 0 }
    | none =>
      if !(((List.range (min 5 pages.length)).map fun i =>
            cleanOcrLines (bestOcr [ocrOut i 0, ocrOut i 1])).filter
            fun t => !t.isEmpty).isEmpty then
        { text := List.intercalate "\n\n".data
            (((List.range (min 5 pages.length)).map fun i =>
              cleanOcrLines (bestOcr [ocrOut i 0, ocrOut i 1])).filter fun t => !t.isEmpty),
          ocrPagesUsed := min 5 pages.length }
      else
        { text := "No text could be extracted from this PDF".data,
          ocrPagesUsed := min 5 pages.length }

/-- Supported image extensions. -/
def imagesExts : List Str :=
  [".png".data, ".jpg".data, ".jpeg".data, ".bmp".data, ".tiff".data, ".gif".data]

/-- Supported PDF extensions. -/
def pdfExts : List Str := [".pdf".data]

/-- Supported word-processor extensions. -/
def wordExts : List Str := [".docx".data, ".doc".data]

/-- Supported spreadsheet extensions. -/
def excelExts : List Str := [".xlsx".data, ".xls".data, ".csv".data]

/-- Supported archive extensions. -/
def archiveExts : List Str := [".zip".data]

/-- The flattened supported-format vocabulary, in dictionary order. -/
def allSupportedExts : List Str :=
  imagesExts ++ pdfExts ++ wordExts ++ excelExts ++ archiveExts

/-- Index of the last occurrence of c in s (Python str.rfind, as Option). -/
def lastIdxOf (c : Char) (s : Str) : Option Nat :=
  (List.range s.length).foldl (fun acc i => if s.getD i ' ' = c then some i else acc) none

/-- Extension component of os.path.splitext: the suffix from the last dot,
provided some character of the basename strictly before that dot is not a
dot itself. -/
def splitextExt (p : Str) : Str :=
  match lastIdxOf '.' p with
  | none => []
  | some dotIdx =>
    let start :=
      match lastIdxOf '/' p with
      | some sIdx => sIdx + 1
      | none => 0
    if (List.range dotIdx).any (fun k => decide (start ≤ k ∧ p.getD k '.' ≠ '.')) then
      p.drop dotIdx
    else []

/-- Members kept from the os.walk enumeration of an extracted archive:
supported extension (of the lowercased name) and not a nested archive. -/
def zipCandidates (files : List Str) : List Str :=
  files.filter (fun f =>
    decide (splitextExt (strLower f) ∈ allSupportedExts
      ∧ splitextExt (strLower f) ≠ ".zip".data))

/-- Members the ZIP loop actually processes: the first ten candidates. -/
def zipProcessed (files : List Str) : List Str := (zipCandidates files).take 10

/-- States reachable from a faker state by a sequence of successful
generator calls (the same instance's cache lifetime). -/
inductive Reaches : FakerState → FakerState → Prop
  | refl (st : FakerState) : Reaches st st
  | step {st st' st'' : FakerState} (gs : Nat → Gen) (L V v : Str)
      (h : Reaches st st')
      (hc : generateFakeValue gs st' L V = some (v, st'')) :
      Reaches st st''

/-- A fixed bundle of concrete draws, used for concrete evaluations. -/
def gen0 : Gen where
  nameMale := "Rahul Verma".data
  nameFemale := "Anita Desai".data
  name := "Kiran Rao".data
  email := "someone@example.net".data
  address := "12 MG Road\nPune".data
  deaLetters := "ab".data
  passLetter := 'k'
  specialty := 0
  dom5 := 0
  dom3 := 0
  state10 := 0
  state7 := 0
  dobMonth := 0
  insName := 0
  aadhaarDigit := fun _ => 0
  phone := 7000000000
  hospId := 1234567
  patId := 123456
  mrn := 123456
  polId := 12345678
  memId := 1234567
  provId := 1234
  npi := 1000000000
  medLic := 10000
  deaNum := 1000000
  dobDay := 5
  dobYear := 1990
  cc4 := 1234
  passNum := 1000000
  dlNum := 10000000000

/-- The spec's stated email-local-part derivation, written from the spec's
words for comparison with the code's: the anchor's first and last
whitespace-separated tokens, each lower-cased with non-alphabetic
characters stripped, joined by a period. -/
def claimLocalPart (a : Str) : Str :=
  cleanForEmail ((pySplitWs a).headD []) ++ ".".data
    ++ cleanForEmail (List.getLastD (pySplitWs a) [])

/-- The key order replace_pii_json actually produces: the first
patient/name label of the mapping (if any) hoisted to the front, every
remaining label in mapping order. -/
def expectedKeys (m : List (Str × Val)) : List Str :=
  match m.find? (fun e => isNameKey e.1) with
  | none => m.map Prod.fst
  | some e => e.1 :: ((m.map Prod.fst).filter fun k => k != e.1)

/-- First-appearance order of a list of labels (Python dict key order under
repeated insertion). -/
def firstAppearance (ls : List Str) : List Str :=
  ls.foldl (fun seen l => if l ∈ seen then seen else seen ++ [l]) []

theorem assocFind_append_some {α : Type} {l : List (Str × α)} {k : Str} {v : α}
    (l' : List (Str × α)) (h : assocFind l k = some v) :
    assocFind (l ++ l') k = some v := by
  induction l with
  | nil => simp [assocFind] at h
  | cons hd tl ih =>
    obtain ⟨k', v'⟩ := hd
    by_cases hk : k' = k
    · simp only [assocFind, List.cons_append, if_pos hk] at h ⊢
      exact h
    · simp only [assocFind, List.cons_append, if_neg hk] at h ⊢
      exact ih h

theorem assocFind_append_none {α : Type} {l : List (Str × α)} {k : Str}
    (l' : List (Str × α)) (h : assocFind l k = none) :
    assocFind (l ++ l') k = assocFind l' k := by
  induction l with
  | nil => rw [List.nil_append]
  | cons hd tl ih =>
    obtain ⟨k', v'⟩ := hd
    by_cases hk : k' = k
    · simp only [assocFind, if_pos hk] at h
      exact Option.noConfusion h
    · simp only [assocFind, List.cons_append, if_neg hk] at h ⊢
      exact ih h

theorem assocFind_eq_none_iff {α : Type} {l : List (Str × α)} {k : Str} :
    assocFind l k = none ↔ k ∉ l.map Prod.fst := by
  induction l with
  | nil =>
    simp only [assocFind, List.map_nil, List.not_mem_nil, not_false_eq_true, iff_true]
  | cons hd tl ih =>
    obtain ⟨k', v'⟩ := hd
    rw [List.map_cons]
    by_cases hk : k' = k
    · subst hk
      simp only [assocFind, if_pos rfl, List.mem_cons]
      constructor
      · intro h
        exact Option.noConfusion h
      · intro h
        exact absurd (Or.inl trivial) h
    · simp only [assocFind, if_neg hk, List.mem_cons, ih]
      constructor
      · intro h hc
        rcases hc with hc | hc
        · exact hk hc.symm
        · exact h hc
      · intro h hc
        exact h (Or.inr hc)

theorem assocFind_append_single_ne {α : Type} (l : List (Str × α)) {k label : Str}
    (v : α) (hne : label ≠ k) : assocFind (l ++ [(label, v)]) k = assocFind l k := by
  induction l with
  | nil =>
    rw [List.nil_append]
    simp only [assocFind, if_neg hne]
  | cons hd tl ih =>
    obtain ⟨k', v'⟩ := hd
    by_cases hk : k' = k
    · simp only [List.cons_append, assocFind, if_pos hk]
    · simp only [List.cons_append, assocFind, if_neg hk]
      exact ih

theorem generateFakeValue_cache_lookup {gs : Nat → Gen} {st st' : FakerState}
    {L V v : Str} (h : generateFakeValue gs st L V = some (v, st')) :
    assocFind st'.cache (mkKey L V) = some v := by
  unfold generateFakeValue at h
  split at h
  · next w hf =>
    obtain ⟨rfl, rfl⟩ : w = v ∧ st = st' := by simpa using h
    exact hf
  · next hf =>
    split at h
    · exact Option.noConfusion h
    · next fv anc hb =>
      obtain ⟨rfl, rfl⟩ : fv = v ∧ _ = st' := by simpa using h
      rw [assocFind_append_none _ hf]
      simp [assocFind]

theorem generateFakeValue_preserves {gs : Nat → Gen} {st st' : FakerState}
    {L V v k w : Str} (hk : assocFind st.cache k = some w)
    (h : generateFakeValue gs st L V = some (v, st')) :
    assocFind st'.cache k = some w := by
  unfold generateFakeValue at h
  split at h
  · next w' hf =>
    obtain ⟨rfl, rfl⟩ : w' = v ∧ st = st' := by simpa using h
    exact hk
  · next hf =>
    split at h
    · exact Option.noConfusion h
    · next fv anc hb =>
      obtain ⟨rfl, rfl⟩ : fv = v ∧ _ = st' := by simpa using h
      exact assocFind_append_some _ hk

theorem generateFakeValue_of_cached {gs : Nat → Gen} {st : FakerState} {L V v : Str}
    (h : assocFind st.cache (mkKey L V) = some v) :
    generateFakeValue gs st L V = some (v, st) := by
  unfold generateFakeValue
  rw [h]

theorem Reaches.preserves {st st' : FakerState} {k v : Str}
    (h : Reaches st st') (hk : assocFind st.cache k = some v) :
    assocFind st'.cache k = some v := by
  induction h with
  | refl => exact hk
  | step gs L V w h hc ih => exact generateFakeValue_preserves ih hc

/-- Claim C1: within one cache lifetime, a second generator call with the
same label and original value returns the byte-identical synthetic value
the first call produced (and leaves the state unchanged), regardless of
the random draws of either call and of any successful calls in between. -/
theorem generateFakeValue_cached_deterministic
    (gs gs' : Nat → Gen) (st st1 st2 : FakerState) (L V v1 : Str)
    (h1 : generateFakeValue gs st L V = some (v1, st1))
    (h2 : Reaches st1 st2) :
    generateFakeValue gs' st2 L V = some (v1, st2) :=
  generateFakeValue_of_cached (h2.preserves (generateFakeValue_cache_lookup h1))

/-- Witness for C1: a concrete first call followed by an immediate second
call on the same (label, value) returns the cached value. -/
theorem generateFakeValue_cached_deterministic_witness :
    generateFakeValue (fun _ => gen0)
        ⟨[("phone number:9".data, "+91-7000000000".data)], none, 1⟩
        "phone number".data "9".data
      = some ("+91-7000000000".data,
          ⟨[("phone number:9".data, "+91-7000000000".data)], none, 1⟩) :=
  generateFakeValue_cached_deterministic (fun _ => gen0) (fun _ => gen0)
    ⟨[], none, 0⟩
    ⟨[("phone number:9".data, "+91-7000000000".data)], none, 1⟩
    ⟨[("phone number:9".data, "+91-7000000000".data)], none, 1⟩
    "phone number".data "9".data "+91-7000000000".data
    (by decide)
    (Reaches.refl _)

/-- Claim C9: the cache key is the plain concatenation label-colon-value,
so two distinct (label, value) pairs with the same concatenation share one
cache entry: the pair replaced second receives the value generated for the
first. -/
theorem cacheKeyCollision
    (gs gs' : Nat → Gen) (st st1 : FakerState) (L1 V1 L2 V2 v1 : Str)
    (hkey : mkKey L1 V1 = mkKey L2 V2)
    (h1 : generateFakeValue gs st L1 V1 = some (v1, st1)) :
    generateFakeValue gs' st1 L2 V2 = some (v1, st1) := by
  have hc := generateFakeValue_cache_lookup h1
  rw [hkey] at hc
  exact generateFakeValue_of_cached hc

/-- Witness for C9: label "a:b" with value "c" collides with label "a" and
value "b:c"; the second pair receives the generic placeholder generated
for the first. -/
theorem cacheKeyCollision_witness :
    generateFakeValue (fun _ => gen0)
        ⟨[("a:b:c".data, "[FAKE_A_B]".data)], none, 1⟩ "a".data "b:c".data
      = some ("[FAKE_A_B]".data, ⟨[("a:b:c".data, "[FAKE_A_B]".data)], none, 1⟩) :=
  cacheKeyCollision (fun _ => gen0) (fun _ => gen0) ⟨[], none, 0⟩
    ⟨[("a:b:c".data, "[FAKE_A_B]".data)], none, 1⟩
    "a:b".data "c".data "a".data "b:c".data "[FAKE_A_B]".data
    (by decide) (by decide)

/-- Claim C2 (counterexample): the image-OCR and PDF-OCR failure strings do
not carry the "Error:" prefix the callers test, so a caller treats them as
successful extraction; the ZIP member loop even keeps such a failure string
as member text. -/
theorem errorConvention_cex :
    callerDetectsError (ocrError "boom".data) = false
    ∧ callerDetectsError (pdfOcrFailedError "boom".data) = false
    ∧ callerDetectsError (fileNotFoundError "x.pdf".data) = true
    ∧ zipMemberKept (ocrError "boom".data) = true :=
  ⟨rfl, rfl, rfl, by decide⟩

/-- Claim C2 (amended): the failure strings carry several different
prefixes; the callers' startswith test detects exactly the missing-file and
unsupported-format failures, and none of the per-strategy failure strings. -/
theorem errorConvention_amended (p m : Str) :
    callerDetectsError (fileNotFoundError p) = true
    ∧ callerDetectsError (unsupportedFormatError p) = true
    ∧ callerDetectsError (ocrError m) = false
    ∧ callerDetectsError (pdfOcrFailedError m) = false
    ∧ callerDetectsError (pdfProcessingError m) = false
    ∧ callerDetectsError (wordProcessingError m) = false
    ∧ callerDetectsError (excelProcessingError m) = false
    ∧ callerDetectsError (zipProcessingError m) = false
    ∧ callerDetectsError (processingError p m) = false :=
  ⟨rfl, rfl, rfl, rfl, rfl, rfl, rfl, rfl, rfl⟩

theorem generateFakeValue_miss_val {gs : Nat → Gen} {st : FakerState} {L V : Str}
    (hmiss : assocFind st.cache (mkKey L V) = none) :
    (generateFakeValue gs st L V).map Prod.fst
      = (genBranch (gs st.ctr) st.anchor L V).map Prod.fst := by
  unfold generateFakeValue
  rw [hmiss]
  cases hb : genBranch (gs st.ctr) st.anchor L V with
  | none => rfl
  | some p =>
    obtain ⟨fv, anc⟩ := p
    rfl

theorem genBranch_name_val (g : Gen) (anc0 : Option Str) (L V : Str)
    (hname : (containsSub "patient name".data (strLower L)
      || containsSub "name".data (strLower L)) = true) :
    (genBranch g anc0 L V).map Prod.fst = some
      (if containsAny (strLower V) maleTitles then g.nameMale
       else if containsAny (strLower V) femaleTitles then
         if containsSub "dr.".data (strLower V) then "Dr. ".data ++ g.name
         else g.nameFemale
       else g.name) := by
  unfold genBranch
  rw [if_pos hname]
  rfl

theorem containsAny_of_mem {s t : Str} {toks : List Str} (ht : t ∈ toks)
    (h : containsSub t s = true) : containsAny s toks = true := by
  unfold containsAny
  exact List.any_eq_true.mpr ⟨t, ht, h⟩

/-- Claim C3 (counterexample): the original value "Mrs. Anita Sharma"
contains the female-indicating token "mrs.", yet the generator takes the
male branch, because the male token list is checked first and "mr" is a
substring of "mrs". -/
theorem nameBranch_femaleTitle_cex :
    containsSub "mrs.".data (strLower "Mrs. Anita Sharma".data) = true
    ∧ (generateFakeValue (fun _ => gen0) ⟨[], none, 0⟩ "Patient Name".data
        "Mrs. Anita Sharma".data).map Prod.fst = some gen0.nameMale
    ∧ gen0.nameMale ≠ gen0.nameFemale :=
  ⟨by decide, by decide, by decide⟩

/-- Claim C3 (amended): for a name-like label on a cache miss, a value with
a male-indicating substring (in particular any value containing "mr.", so
also "Mrs.") yields the male-branch name; a female/formal token yields the
female name, and "dr." yields a "Dr. "-prefixed name, only when no
male-indicating substring is present. -/
theorem nameBranch_amended (gs : Nat → Gen) (st : FakerState) (L V : Str)
    (hmiss : assocFind st.cache (mkKey L V) = none)
    (hname : (containsSub "patient name".data (strLower L)
      || containsSub "name".data (strLower L)) = true) :
    (containsAny (strLower V) maleTitles = true →
      (generateFakeValue gs st L V).map Prod.fst = some (gs st.ctr).nameMale)
    ∧ (containsSub "mr.".data (strLower V) = true →
      (generateFakeValue gs st L V).map Prod.fst = some (gs st.ctr).nameMale)
    ∧ (containsAny (strLower V) maleTitles = false →
       containsSub "dr.".data (strLower V) = true →
      (generateFakeValue gs st L V).map Prod.fst
        = some ("Dr. ".data ++ (gs st.ctr).name))
    ∧ (containsAny (strLower V) maleTitles = false →
       containsAny (strLower V) femaleTitles = true →
       containsSub "dr.".data (strLower V) = false →
      (generateFakeValue gs st L V).map Prod.fst = some (gs st.ctr).nameFemale) := by
  have hval := (generateFakeValue_miss_val hmiss).trans
    (genBranch_name_val (gs st.ctr) st.anchor L V hname)
  refine ⟨fun hm => ?_, fun hmr => ?_, fun hm hdr => ?_, fun hm hf hdr => ?_⟩
  · rw [hval, if_pos hm]
  · rw [hval, if_pos (containsAny_of_mem (by decide) hmr)]
  · rw [hval, if_neg (by simp [hm]), if_pos (containsAny_of_mem (by decide) hdr),
      if_pos hdr]
  · rw [hval, if_neg (by simp [hm]), if_pos hf, if_neg (by simp [hdr])]

/-- Witness for C3's amended theorem: the standard male-titled input takes
the male branch. -/
theorem nameBranch_amended_witness :
    containsAny (strLower "Mr. Ravi Kumar".data) maleTitles = true
    ∧ (generateFakeValue (fun _ => gen0) ⟨[], none, 0⟩ "Patient Name".data
        "Mr. Ravi Kumar".data).map Prod.fst = some "Rahul Verma".data :=
  ⟨by decide,
    (nameBranch_amended (fun _ => gen0) ⟨[], none, 0⟩ "Patient Name".data
      "Mr. Ravi Kumar".data (by decide) (by decide)).1 (by decide)⟩

theorem genBranch_email_anchor (g : Gen) (a V : Str) :
    genBranch g (some a) "email".data V
      = match pySplitWs (pyReplace "dr. ".data [] (strLower a)) with
        | [] => none
        | p :: ps =>
          if ps.isEmpty then
            some (cleanForEmail p ++ "@".data ++ domain3.getD g.dom3.val [], some a)
          else
            some (cleanForEmail p ++ ".".data ++ cleanForEmail (List.getLastD ps p)
              ++ "@".data ++ domain5.getD g.dom5.val [], some a) := by
  unfold genBranch
  rw [if_neg (by decide), if_neg (by decide), if_pos (by decide)]

theorem genBranch_email_noanchor (g : Gen) (V : Str) :
    genBranch g none "email".data V = some (g.email, none) := by
  unfold genBranch
  rw [if_neg (by decide), if_neg (by decide), if_pos (by decide)]

/-- Claim C4 (counterexample): with the batch
[Patient Name: "Dr. Asha Rao", email], the synthetic anchor is the
"Dr. "-prefixed name "Dr. Kiran Rao"; the code's email local part is
"kiran.rao" (it lower-cases and deletes "dr. " before splitting), while
the claim's stated derivation from the anchor's first and last tokens
would give "dr.rao". -/
theorem emailAnchor_cex :
    (replacePiiJson (fun _ => gen0) ⟨[], none, 0⟩
        [("Patient Name".data, Val.s "Dr. Asha Rao".data),
         ("email".data, Val.s "a@b.c".data)]).map
        (fun r => (assocFind r.1 "Patient Name".data, assocFind r.1 "email".data))
      = some (some (Val.s "Dr. Kiran Rao".data),
          some (Val.s "kiran.rao@example.com".data))
    ∧ claimLocalPart "Dr. Kiran Rao".data ≠ "kiran.rao".data
    ∧ claimLocalPart "Dr. Kiran Rao".data = "dr.rao".data :=
  ⟨by decide, by decide, by decide⟩

/-- Claim C4 (amended): on a cache miss for an email label, when the anchor
is set the local part is derived from the anchor lower-cased with every
"dr. " occurrence deleted and then split: with at least two tokens it is
clean(first).clean(last) with a domain from the five-domain vocabulary;
with exactly one token it is clean(token) with a domain from the
three-domain vocabulary; with no anchor the generator returns the
faker-supplied address without failing. -/
theorem emailAnchor_amended (gs : Nat → Gen) (st : FakerState) (V : Str)
    (hmiss : assocFind st.cache (mkKey "email".data V) = none) :
    (∀ a p ps, st.anchor = some a →
      pySplitWs (pyReplace "dr. ".data [] (strLower a)) = p :: ps → ps = [] →
      (generateFakeValue gs st "email".data V).map Prod.fst
        = some (cleanForEmail p ++ "@".data ++ domain3.getD (gs st.ctr).dom3.val []))
    ∧ (∀ a p ps, st.anchor = some a →
      pySplitWs (pyReplace "dr. ".data [] (strLower a)) = p :: ps → ps ≠ [] →
      (generateFakeValue gs st "email".data V).map Prod.fst
        = some (cleanForEmail p ++ ".".data ++ cleanForEmail (List.getLastD ps p)
            ++ "@".data ++ domain5.getD (gs st.ctr).dom5.val []))
    ∧ (st.anchor = none →
      (generateFakeValue gs st "email".data V).map Prod.fst
        = some (gs st.ctr).email) := by
  have hval := @generateFakeValue_miss_val gs st "email".data V hmiss
  refine ⟨?_, ?_, ?_⟩
  · intro a p ps ha hsplit hps
    subst hps
    rw [hval, ha, genBranch_email_anchor, hsplit]
    rfl
  · intro a p ps ha hsplit hps
    obtain ⟨q, qs, rfl⟩ : ∃ q qs, ps = q :: qs := by
      cases ps with
      | nil => exact absurd rfl hps
      | cons q qs => exact ⟨q, qs, rfl⟩
    rw [hval, ha, genBranch_email_anchor, hsplit]
    rfl
  · intro ha
    rw [hval, ha, genBranch_email_noanchor]
    rfl

/-- Witness for C4's amended theorem: anchor "Rahul Verma" yields the email
rahul.verma@example.com under the concrete draw bundle. -/
theorem emailAnchor_amended_witness :
    pySplitWs (pyReplace "dr. ".data [] (strLower "Rahul Verma".data))
      = ["rahul".data, "verma".data]
    ∧ (generateFakeValue (fun _ => gen0) ⟨[], some "Rahul Verma".data, 0⟩
        "email".data "x@y.com".data).map Prod.fst
      = some "rahul.verma@example.com".data :=
  ⟨by decide,
    (emailAnchor_amended (fun _ => gen0) ⟨[], some "Rahul Verma".data, 0⟩
        "x@y.com".data (by decide)).2.1 "Rahul Verma".data "rahul".data
      ["verma".data] rfl (by decide) (by decide)⟩

theorem dictInsert_not_mem {α : Type} {k : Str} {l : List (Str × α)} (v : α)
    (h : k ∉ l.map Prod.fst) : dictInsert k v l = l ++ [(k, v)] := by
  induction l with
  | nil => rfl
  | cons hd tl ih =>
    obtain ⟨k', v'⟩ := hd
    rw [List.map_cons, List.mem_cons] at h
    push_neg at h
    simp only [dictInsert, if_neg (Ne.symm h.1), List.cons_append, ih h.2]

theorem replaceValueList_length {gs : Nat → Gen} {label : Str} :
    ∀ {vs : List Str} {st : FakerState} {fs : List Str} {st' : FakerState},
    replaceValueList gs label st vs = some (fs, st') → fs.length = vs.length := by
  intro vs
  induction vs with
  | nil =>
    intro st fs st' h
    simp only [replaceValueList, Option.some.injEq, Prod.mk.injEq] at h
    rw [← h.1]
  | cons v vs ih =>
    intro st fs st' h
    simp only [replaceValueList, Option.bind_eq_some] at h
    obtain ⟨p, hp, h⟩ := h
    obtain ⟨q, hq, h⟩ := h
    simp only [Option.some.injEq, Prod.mk.injEq] at h
    rw [← h.1, List.length_cons, List.length_cons, ih hq]

theorem replaceEntry_shape {gs : Nat → Gen} {st : FakerState} {label : Str}
    {v fv : Val} {st' : FakerState}
    (h : replaceEntry gs st label v = some (fv, st')) : ShapeEq v fv := by
  cases v with
  | s sv =>
    simp only [replaceEntry, Option.bind_eq_some] at h
    obtain ⟨p, hp, h⟩ := h
    simp only [Option.some.injEq, Prod.mk.injEq] at h
    rw [← h.1]
    exact trivial
  | l vs =>
    simp only [replaceEntry, Option.bind_eq_some] at h
    obtain ⟨q, hq, h⟩ := h
    simp only [Option.some.injEq, Prod.mk.injEq] at h
    rw [← h.1]
    exact (replaceValueList_length hq).symm

theorem secondPass_spec (gs : Nat → Gen) :
    ∀ (rest : List (Str × Val)) (st : FakerState) (acc out : List (Str × Val))
      (st' : FakerState),
    (rest.map Prod.fst).Nodup →
    (∀ e ∈ rest, e.1 ∈ acc.map Prod.fst → isNameKey e.1 = true) →
    secondPass gs st rest acc = some (out, st') →
    out.map Prod.fst
      = acc.map Prod.fst
        ++ (rest.filter fun e =>
            !(isNameKey e.1 && (assocFind acc e.1).isSome)).map Prod.fst
    ∧ ∀ e ∈ out, e ∈ acc ∨ ∃ v0, (e.1, v0) ∈ rest ∧ ShapeEq v0 e.2 := by
  intro rest
  induction rest with
  | nil =>
    intro st acc out st' hnd hacc h
    simp only [secondPass, Option.some.injEq, Prod.mk.injEq] at h
    obtain ⟨rfl, rfl⟩ := h
    exact ⟨by simp, fun e he => Or.inl he⟩
  | cons hd rest ih =>
    intro st acc out st' hnd hacc h
    obtain ⟨label, v⟩ := hd
    rw [List.map_cons, List.nodup_cons] at hnd
    obtain ⟨hnm, hnd'⟩ := hnd
    simp only [secondPass] at h
    by_cases hskip : (isNameKey label && (assocFind acc label).isSome) = true
    · rw [if_pos hskip] at h
      obtain ⟨hkeys, hshape⟩ := ih st acc out st' hnd'
        (fun e he => hacc e (List.mem_cons_of_mem _ he)) h
      refine ⟨?_, ?_⟩
      · rw [hkeys, List.filter_cons_of_neg (by simp [hskip])]
      · intro e he
        rcases hshape e he with h1 | ⟨v0, hv0, hs⟩
        · exact Or.inl h1
        · exact Or.inr ⟨v0, List.mem_cons_of_mem _ hv0, hs⟩
    · rw [if_neg hskip] at h
      rw [Option.bind_eq_some] at h
      obtain ⟨r, hre, h⟩ := h
      have hskip' : (isNameKey label && (assocFind acc label).isSome) = false :=
        Bool.eq_false_iff.mpr hskip
      have hlm : label ∉ acc.map Prod.fst := by
        intro hmem
        refine hskip ?_
        rw [Bool.and_eq_true]
        refine ⟨hacc (label, v) (List.mem_cons_self _ _) hmem, ?_⟩
        cases hfa : assocFind acc label with
        | none => exact absurd hmem (assocFind_eq_none_iff.mp hfa)
        | some w => rfl
      rw [dictInsert_not_mem r.1 hlm] at h
      have hacc' : ∀ e ∈ rest,
          e.1 ∈ (acc ++ [(label, r.1)]).map Prod.fst → isNameKey e.1 = true := by
        intro e he hm
        rw [List.map_append, List.mem_append] at hm
        rcases hm with hm | hm
        · exact hacc e (List.mem_cons_of_mem _ he) hm
        · simp only [List.map_cons, List.map_nil, List.mem_singleton] at hm
          rw [← hm] at hnm
          exact absurd (List.mem_map_of_mem Prod.fst he) hnm
      obtain ⟨hkeys, hshape⟩ := ih r.2 (acc ++ [(label, r.1)]) out st' hnd' hacc' h
      have hfeq : (rest.filter fun e =>
            !(isNameKey e.1 && (assocFind (acc ++ [(label, r.1)]) e.1).isSome))
          = rest.filter fun e =>
            !(isNameKey e.1 && (assocFind acc e.1).isSome) := by
        refine List.filter_congr fun e he => ?_
        have hne : label ≠ e.1 := by
          intro heq
          rw [heq] at hnm
          exact hnm (List.mem_map.mpr ⟨e, he, rfl⟩)
        rw [assocFind_append_single_ne _ r.1 hne]
      refine ⟨?_, ?_⟩
      · rw [hkeys, hfeq, List.filter_cons_of_pos (by simp [hskip'])]
        simp [List.map_append, List.append_assoc]
      · intro e he
        rcases hshape e he with h1 | ⟨v0, hv0, hs⟩
        · rw [List.mem_append] at h1
          rcases h1 with h1 | h1
          · exact Or.inl h1
          · simp only [List.mem_singleton] at h1
            subst h1
            exact Or.inr ⟨v, List.mem_cons_self _ _, replaceEntry_shape hre⟩
        · exact Or.inr ⟨v0, List.mem_cons_of_mem _ hv0, hs⟩

theorem replacePiiJson_find_none {gs : Nat → Gen} {st : FakerState}
    {m : List (Str × Val)} (hfind : m.find? (fun e => isNameKey e.1) = none) :
    replacePiiJson gs st m = secondPass gs { st with anchor := none } m [] := by
  unfold replacePiiJson
  rw [hfind]

theorem replacePiiJson_find_some {gs : Nat → Gen} {st : FakerState}
    {m : List (Str × Val)} {e : Str × Val}
    (hfind : m.find? (fun e => isNameKey e.1) = some e) :
    replacePiiJson gs st m
      = (replaceEntry gs { st with anchor := none } e.1 e.2).bind fun r =>
          secondPass gs
            { r.2 with anchor :=
                match r.1 with
                | Val.s sv => some sv
                | Val.l [] => r.2.anchor
                | Val.l (sv :: _) => some sv }
            m (dictInsert e.1 r.1 []) := by
  unfold replacePiiJson
  rw [hfind]

theorem replacePiiJson_keys {gs : Nat → Gen} {st st' : FakerState}
    {m out : List (Str × Val)} (hnd : (m.map Prod.fst).Nodup)
    (h : replacePiiJson gs st m = some (out, st')) :
    out.map Prod.fst = expectedKeys m := by
  unfold expectedKeys
  cases hfind : m.find? (fun e => isNameKey e.1) with
  | none =>
    show out.map Prod.fst = m.map Prod.fst
    rw [replacePiiJson_find_none hfind] at h
    obtain ⟨hkeys, _⟩ := secondPass_spec gs m _ [] out st' hnd
      (fun e he hm => absurd hm (List.not_mem_nil _)) h
    have hfe : (m.filter fun e =>
          !(isNameKey e.1 && (assocFind ([] : List (Str × Val)) e.1).isSome)) = m := by
      have hall : ∀ e ∈ m,
          (!(isNameKey e.1 && (assocFind ([] : List (Str × Val)) e.1).isSome)) = true := by
        intro e he
        simp [assocFind]
      exact (List.filter_congr hall).trans (List.filter_true m)
    rw [hkeys, hfe]
    simp only [List.map_nil, List.nil_append]
  | some e0 =>
    show out.map Prod.fst = e0.1 :: ((m.map Prod.fst).filter fun k => k != e0.1)
    rw [replacePiiJson_find_some hfind] at h
    rw [Option.bind_eq_some] at h
    obtain ⟨r, hre, h⟩ := h
    rw [show dictInsert e0.1 r.1 ([] : List (Str × Val)) = [(e0.1, r.1)] from rfl] at h
    have hnk := List.find?_some hfind
    have hacc : ∀ e ∈ m,
        e.1 ∈ ([(e0.1, r.1)] : List (Str × Val)).map Prod.fst → isNameKey e.1 = true := by
      intro e he hm
      simp only [List.map_cons, List.map_nil, List.mem_singleton] at hm
      rw [hm]
      exact hnk
    obtain ⟨hkeys, _⟩ := secondPass_spec gs m _ [(e0.1, r.1)] out st' hnd hacc h
    have hstep : (m.filter fun e =>
          !(isNameKey e.1 && (assocFind [(e0.1, r.1)] e.1).isSome))
        = m.filter ((fun k => k != e0.1) ∘ Prod.fst) := by
      refine List.filter_congr fun e he => ?_
      by_cases hq : e.1 = e0.1
      · simp [Function.comp, assocFind, hq, hnk]
      · simp [Function.comp, assocFind, hq, Ne.symm hq]
    rw [hkeys, hstep, ← List.filter_map]
    simp

theorem replacePiiJson_shapes {gs : Nat → Gen} {st st' : FakerState}
    {m out : List (Str × Val)} (hnd : (m.map Prod.fst).Nodup)
    (h : replacePiiJson gs st m = some (out, st')) :
    ∀ e ∈ out, ∃ v0, (e.1, v0) ∈ m ∧ ShapeEq v0 e.2 := by
  cases hfind : m.find? (fun e => isNameKey e.1) with
  | none =>
    rw [replacePiiJson_find_none hfind] at h
    obtain ⟨_, hshape⟩ := secondPass_spec gs m _ [] out st' hnd
      (fun e he hm => absurd hm (List.not_mem_nil _)) h
    intro e he
    rcases hshape e he with h1 | h2
    · exact absurd h1 (List.not_mem_nil _)
    · exact h2
  | some e0 =>
    rw [replacePiiJson_find_some hfind] at h
    rw [Option.bind_eq_some] at h
    obtain ⟨r, hre, h⟩ := h
    rw [show dictInsert e0.1 r.1 ([] : List (Str × Val)) = [(e0.1, r.1)] from rfl] at h
    have hnk := List.find?_some hfind
    obtain ⟨_, hshape⟩ := secondPass_spec gs m _ [(e0.1, r.1)] out st' hnd
      (by intro e he hm
          simp only [List.map_cons, List.map_nil, List.mem_singleton] at hm
          rw [hm]
          exact hnk) h
    intro e he
    rcases hshape e he with h1 | h2
    · simp only [List.mem_singleton] at h1
      subst h1
      exact ⟨e0.2, List.mem_of_find?_eq_some hfind, replaceEntry_shape hre⟩
    · exact h2

/-- Claim C5 (counterexample): with mapping order [Patient Name, email,
name], the second patient/name label "name" is processed after the email
label (output insertion order is processing order), refuting that every
patient/name label is processed before every other label. -/
theorem batchOrder_cex :
    (replacePiiJson (fun _ => gen0) ⟨[], none, 0⟩
        [("Patient Name".data, Val.s "Mr. Ravi Kumar".data),
         ("email".data, Val.s "x@y.com".data),
         ("name".data, Val.s "Ravi".data)]).map (fun r => r.1.map Prod.fst)
      = some ["Patient Name".data, "email".data, "name".data]
    ∧ isNameKey "name".data = true
    ∧ isNameKey "email".data = false :=
  ⟨by decide, by decide, by decide⟩

/-- Claim C5 (amended): replace_pii_json resets the name anchor, processes
the FIRST patient/name label of the mapping before every other label, then
the remaining labels (further name labels included) in the mapping's
natural order; a scalar value yields a scalar replacement and a sequence
value an element-wise-replaced sequence of equal length. -/
theorem batchContract_amended (gs : Nat → Gen) (st : FakerState)
    (m : List (Str × Val)) (hnd : (m.map Prod.fst).Nodup) :
    (∀ o, replacePiiJson gs { st with anchor := o } m = replacePiiJson gs st m)
    ∧ ∀ out st', replacePiiJson gs st m = some (out, st') →
        out.map Prod.fst = expectedKeys m
        ∧ ∀ e ∈ out, ∃ v0, (e.1, v0) ∈ m ∧ ShapeEq v0 e.2 :=
  ⟨fun o => rfl,
   fun out st' h => ⟨replacePiiJson_keys hnd h, replacePiiJson_shapes hnd h⟩⟩

/-- Witness for C5's amended theorem: a one-entry batch produces the name
label first and preserves shape. -/
theorem batchContract_amended_witness :
    (([("Patient Name".data, Val.s "Mr. Ravi".data)] : List (Str × Val)).map
        Prod.fst).Nodup
    ∧ ([("Patient Name".data, Val.s "Rahul Verma".data)] : List (Str × Val)).map
        Prod.fst = expectedKeys [("Patient Name".data, Val.s "Mr. Ravi".data)] :=
  ⟨by decide,
    (((batchContract_amended (fun _ => gen0) ⟨[], none, 0⟩
        [("Patient Name".data, Val.s "Mr. Ravi".data)] (by decide)).2
      [("Patient Name".data, Val.s "Rahul Verma".data)]
      ⟨[("Patient Name:Mr. Ravi".data, "Rahul Verma".data)], some "Rahul Verma".data, 1⟩
      (by decide)).1)⟩

theorem perm_cons_filter_ne {l : List Str} {a : Str} (hnd : l.Nodup) (ha : a ∈ l) :
    List.Perm (a :: (l.filter fun k => k != a)) l := by
  induction l with
  | nil => cases ha
  | cons x xs ih =>
    rw [List.nodup_cons] at hnd
    obtain ⟨hx, hnd'⟩ := hnd
    rcases List.mem_cons.mp ha with rfl | ha'
    · rw [List.filter_cons_of_neg (by simp)]
      have hfe : xs.filter (fun k => k != a) = xs := by
        refine (List.filter_congr fun k hk => ?_).trans (List.filter_true xs)
        simp only [bne_iff_ne, ne_eq, decide_eq_true_eq]
        intro heq
        subst heq
        exact hx hk
      rw [hfe]
    · rw [List.filter_cons_of_pos (by
        simp only [bne_iff_ne, ne_eq, decide_eq_true_eq]
        intro heq
        subst heq
        exact hx ha')]
      exact (List.Perm.swap x a _).trans (List.Perm.cons x (ih hnd' ha'))

/-- Claim C10: for a mapping with distinct labels (a dict), the batch
replacement returns a mapping whose label multiset is exactly the input's:
no label dropped, none added. -/
theorem replaceKeys_perm (gs : Nat → Gen) (st : FakerState)
    (m out : List (Str × Val)) (st' : FakerState)
    (hnd : (m.map Prod.fst).Nodup)
    (h : replacePiiJson gs st m = some (out, st')) :
    (out.map Prod.fst).Perm (m.map Prod.fst) := by
  rw [replacePiiJson_keys hnd h]
  unfold expectedKeys
  cases hfind : m.find? (fun e => isNameKey e.1) with
  | none =>
    show List.Perm (m.map Prod.fst) (m.map Prod.fst)
    exact List.Perm.refl _
  | some e0 =>
    show List.Perm (e0.1 :: ((m.map Prod.fst).filter fun k => k != e0.1))
      (m.map Prod.fst)
    have hmem : e0.1 ∈ m.map Prod.fst :=
      List.mem_map_of_mem Prod.fst (List.mem_of_find?_eq_some hfind)
    exact perm_cons_filter_ne hnd hmem

/-- Witness for C10: a concrete one-entry batch returns the same key set. -/
theorem replaceKeys_perm_witness :
    List.Perm
      (([("email".data, Val.s "someone@example.net".data)] : List (Str × Val)).map
        Prod.fst)
      (([("email".data, Val.s "e".data)] : List (Str × Val)).map Prod.fst) :=
  replaceKeys_perm (fun _ => gen0) ⟨[], none, 0⟩
    [("email".data, Val.s "e".data)]
    [("email".data, Val.s "someone@example.net".data)]
    ⟨[("email:e".data, "someone@example.net".data)], none, 1⟩
    (by decide) (by decide)

/-- Claim C6: if at least one PDF page has non-empty trimmed direct text,
OCR is never invoked and the result is the double-newline concatenation of
the non-empty stripped page texts; and in every case OCR runs on at most 5
(the first rasterized) pages. -/
theorem pdfOcrGate (pages : List Str) (rasterErr : Option Str)
    (ocrOut : Nat → Fin 2 → Str) :
    ((∃ p ∈ pages, pyStrip p ≠ []) →
      extractFromPdf pages rasterErr ocrOut
        = { text := List.intercalate "\n\n".data
              ((pages.map pyStrip).filter fun t => !t.isEmpty),
            ocrPagesUsed := 0 })
    ∧ (extractFromPdf pages rasterErr ocrOut).ocrPagesUsed ≤ 5 := by
  constructor
  · intro hex
    have hne : ((pages.map pyStrip).filter fun t => !t.isEmpty) ≠ [] := by
      obtain ⟨p, hp, hpe⟩ := hex
      intro hcon
      have hmem : pyStrip p ∈ (pages.map pyStrip).filter fun t => !t.isEmpty := by
        refine List.mem_filter.mpr ⟨List.mem_map.mpr ⟨p, hp, rfl⟩, ?_⟩
        simp [hpe]
      rw [hcon] at hmem
      exact absurd hmem (List.not_mem_nil _)
    unfold extractFromPdf
    rw [if_pos]
    simp [hne]
  · unfold extractFromPdf
    split
    · exact Nat.zero_le 5
    · split
      · exact Nat.zero_le 5
      · split
        · exact Nat.min_le_left 5 pages.length
        · exact Nat.min_le_left 5 pages.length

/-- Witness for C6: a one-page PDF with text "hi" in its text layer is
extracted directly with no OCR. -/
theorem pdfOcrGate_witness :
    (∃ p ∈ (["hi".data] : List Str), pyStrip p ≠ [])
    ∧ extractFromPdf ["hi".data] none (fun _ _ => [])
        = { text := "hi".data, ocrPagesUsed := 0 } :=
  ⟨by decide, (pdfOcrGate ["hi".data] none (fun _ _ => [])).1 (by decide)⟩

/-- Claim C7: the ZIP member list the extractor processes has at most 10
elements, and every processed member has a supported extension and is not
a nested archive. -/
theorem zipMembersBounded (files : List Str) :
    (zipProcessed files).length ≤ 10
    ∧ ((zipProcessed files).all fun f =>
        decide (splitextExt (strLower f) ∈ allSupportedExts
          ∧ splitextExt (strLower f) ≠ ".zip".data)) = true := by
  constructor
  · rw [zipProcessed, List.length_take]
    exact Nat.min_le_left 10 _
  · rw [List.all_eq_true]
    intro f hf
    rw [zipProcessed] at hf
    have hf' : f ∈ zipCandidates files := List.mem_of_mem_take hf
    rw [zipCandidates] at hf'
    have hp := List.of_mem_filter hf'
    exact hp

theorem addEntity_of_none {m : List (Str × Val)} {label text : Str}
    (hf : assocFind m label = none) :
    addEntity m label text = m ++ [(label, Val.s text)] := by
  unfold addEntity
  rw [hf]

theorem addEntity_of_s {m : List (Str × Val)} {label text sv : Str}
    (hf : assocFind m label = some (Val.s sv)) :
    addEntity m label text = dictInsert label (Val.l [sv, text]) m := by
  unfold addEntity
  rw [hf]

theorem addEntity_of_l {m : List (Str × Val)} {label text : Str} {xs : List Str}
    (hf : assocFind m label = some (Val.l xs)) :
    addEntity m label text = dictInsert label (Val.l (xs ++ [text])) m := by
  unfold addEntity
  rw [hf]

theorem valsAt_of_none {m : List (Str × Val)} {L : Str}
    (hf : assocFind m L = none) : valsAt m L = [] := by
  unfold valsAt
  rw [hf]

theorem valsAt_of_s {m : List (Str × Val)} {L sv : Str}
    (hf : assocFind m L = some (Val.s sv)) : valsAt m L = [sv] := by
  unfold valsAt
  rw [hf]

theorem valsAt_of_l {m : List (Str × Val)} {L : Str} {xs : List Str}
    (hf : assocFind m L = some (Val.l xs)) : valsAt m L = xs := by
  unfold valsAt
  rw [hf]

theorem assocFind_dictInsert_self {α : Type} (m : List (Str × α)) (k : Str) (v : α) :
    assocFind (dictInsert k v m) k = some v := by
  induction m with
  | nil =>
    show assocFind [(k, v)] k = some v
    simp [assocFind]
  | cons hd tl ih =>
    obtain ⟨k', v'⟩ := hd
    by_cases hk : k' = k
    · simp only [dictInsert]
      rw [if_pos hk]
      simp [assocFind]
    · simp only [dictInsert]
      rw [if_neg hk]
      simp only [assocFind]
      rw [if_neg hk]
      exact ih

theorem assocFind_dictInsert_ne {α : Type} (m : List (Str × α)) {k k2 : Str} (v : α)
    (hne : k ≠ k2) : assocFind (dictInsert k v m) k2 = assocFind m k2 := by
  induction m with
  | nil =>
    show assocFind [(k, v)] k2 = assocFind [] k2
    simp only [assocFind]
    rw [if_neg hne]
  | cons hd tl ih =>
    obtain ⟨k', v'⟩ := hd
    by_cases hk : k' = k
    · simp only [dictInsert]
      rw [if_pos hk]
      simp only [assocFind]
      rw [if_neg hne, if_neg (show ¬(k' = k2) by rw [hk]; exact hne)]
    · simp only [dictInsert]
      rw [if_neg hk]
      simp only [assocFind]
      by_cases hk2 : k' = k2
      · rw [if_pos hk2, if_pos hk2]
      · rw [if_neg hk2, if_neg hk2]
        exact ih

theorem dictInsert_keys_of_mem {α : Type} {m : List (Str × α)} {k : Str} (v : α)
    (h : k ∈ m.map Prod.fst) :
    (dictInsert k v m).map Prod.fst = m.map Prod.fst := by
  induction m with
  | nil => exact absurd h (List.not_mem_nil _)
  | cons hd tl ih =>
    obtain ⟨k', v'⟩ := hd
    rw [List.map_cons] at h ⊢
    by_cases hk : k' = k
    · simp only [dictInsert]
      rw [if_pos hk, List.map_cons, hk]
    · simp only [dictInsert]
      rw [if_neg hk, List.map_cons]
      have h' : k ∈ tl.map Prod.fst := by
        rcases List.mem_cons.mp h with h1 | h1
        · exact absurd h1.symm hk
        · exact h1
      rw [ih h']

theorem valsAt_addEntity (m : List (Str × Val)) (label text L : Str) :
    valsAt (addEntity m label text) L
      = valsAt m L ++ (if label = L then [text] else []) := by
  by_cases hL : label = L
  · subst hL
    rw [if_pos rfl]
    cases hf : assocFind m label with
    | none =>
      have hfind2 : assocFind (m ++ [(label, Val.s text)]) label
          = some (Val.s text) := by
        rw [assocFind_append_none _ hf]
        simp [assocFind]
      rw [addEntity_of_none hf, valsAt_of_none hf, valsAt_of_s hfind2]
      rfl
    | some val =>
      cases val with
      | s sv =>
        rw [addEntity_of_s hf, valsAt_of_s hf,
          valsAt_of_l (assocFind_dictInsert_self m label (Val.l [sv, text]))]
        rfl
      | l xs =>
        rw [addEntity_of_l hf, valsAt_of_l hf,
          valsAt_of_l (assocFind_dictInsert_self m label (Val.l (xs ++ [text])))]
  · rw [if_neg hL, List.append_nil]
    cases hf : assocFind m label with
    | none =>
      rw [addEntity_of_none hf]
      unfold valsAt
      rw [assocFind_append_single_ne _ _ hL]
    | some val =>
      cases val with
      | s sv =>
        rw [addEntity_of_s hf]
        unfold valsAt
        rw [assocFind_dictInsert_ne _ _ hL]
      | l xs =>
        rw [addEntity_of_l hf]
        unfold valsAt
        rw [assocFind_dictInsert_ne _ _ hL]

theorem normalizeGo_valsAt (L : Str) :
    ∀ (es : List (Str × Str)) (m : List (Str × Val)),
    valsAt (es.foldl (fun m e => addEntity m e.1 e.2) m) L
      = valsAt m L ++ (es.filter fun e => e.1 == L).map Prod.snd := by
  intro es
  induction es with
  | nil =>
    intro m
    rw [List.foldl_nil, List.filter_nil, List.map_nil, List.append_nil]
  | cons e es ih =>
    intro m
    rw [List.foldl_cons, ih (addEntity m e.1 e.2), valsAt_addEntity]
    by_cases hL : e.1 = L
    · rw [List.filter_cons_of_pos (by simp [hL]), if_pos hL, List.map_cons,
        List.append_assoc]
      rfl
    · rw [List.filter_cons_of_neg (by simp [hL]), if_neg hL, List.append_nil]

theorem normalizeGo_shape :
    ∀ (es : List (Str × Str)) (m : List (Str × Val)),
    (∀ l xs, assocFind m l = some (Val.l xs) → 2 ≤ xs.length) →
    ∀ l xs, assocFind (es.foldl (fun m e => addEntity m e.1 e.2) m) l
        = some (Val.l xs) → 2 ≤ xs.length := by
  intro es
  induction es with
  | nil =>
    intro m hm
    exact hm
  | cons e es ih =>
    intro m hm
    rw [List.foldl_cons]
    refine ih _ ?_
    intro l xs hf
    cases hf0 : assocFind m e.1 with
    | none =>
      rw [addEntity_of_none hf0] at hf
      by_cases hl : e.1 = l
      · subst hl
        rw [assocFind_append_none _ hf0] at hf
        simp [assocFind] at hf
      · rw [assocFind_append_single_ne _ _ hl] at hf
        exact hm l xs hf
    | some val =>
      cases val with
      | s sv =>
        rw [addEntity_of_s hf0] at hf
        by_cases hl : e.1 = l
        · subst hl
          rw [assocFind_dictInsert_self] at hf
          simp only [Option.some.injEq, Val.l.injEq] at hf
          rw [← hf]
          exact Nat.le.refl
        · rw [assocFind_dictInsert_ne _ _ hl] at hf
          exact hm l xs hf
      | l ys =>
        rw [addEntity_of_l hf0] at hf
        by_cases hl : e.1 = l
        · subst hl
          rw [assocFind_dictInsert_self] at hf
          simp only [Option.some.injEq, Val.l.injEq] at hf
          rw [← hf, List.length_append]
          have h2 := hm _ _ hf0
          omega
        · rw [assocFind_dictInsert_ne _ _ hl] at hf
          exact hm l xs hf

theorem addEntity_keys (m : List (Str × Val)) (label text : Str) :
    (addEntity m label text).map Prod.fst
      = if label ∈ m.map Prod.fst then m.map Prod.fst
        else m.map Prod.fst ++ [label] := by
  cases hf : assocFind m label with
  | none =>
    rw [addEntity_of_none hf, if_neg (assocFind_eq_none_iff.mp hf), List.map_append]
    rfl
  | some val =>
    have hmem : label ∈ m.map Prod.fst := by
      by_contra hc
      rw [assocFind_eq_none_iff.mpr hc] at hf
      exact Option.noConfusion hf
    cases val with
    | s sv => rw [addEntity_of_s hf, if_pos hmem, dictInsert_keys_of_mem _ hmem]
    | l xs => rw [addEntity_of_l hf, if_pos hmem, dictInsert_keys_of_mem _ hmem]

theorem normalizeGo_keys :
    ∀ (es : List (Str × Str)) (m : List (Str × Val)),
    (es.foldl (fun m e => addEntity m e.1 e.2) m).map Prod.fst
      = (es.map Prod.fst).foldl
          (fun seen l => if l ∈ seen then seen else seen ++ [l]) (m.map Prod.fst) := by
  intro es
  induction es with
  | nil =>
    intro m
    rfl
  | cons e es ih =>
    intro m
    rw [List.foldl_cons, List.map_cons, List.foldl_cons, ih, addEntity_keys]

/-- Claim C8: the detection adapter's normalization loses no entity value
(the values a label carries are exactly the oracle's hits for that label,
in order), stores a label as a scalar exactly when the label was hit once,
and lists the labels in order of first appearance. -/
theorem normalizeEntities_spec (es : List (Str × Str)) (L : Str) :
    valsAt (normalizeEntities es) L = (es.filter fun e => e.1 == L).map Prod.snd
    ∧ (∀ sv, assocFind (normalizeEntities es) L = some (Val.s sv)
        ↔ (es.filter fun e => e.1 == L) = [(L, sv)])
    ∧ (normalizeEntities es).map Prod.fst = firstAppearance (es.map Prod.fst) := by
  have hvals : valsAt (normalizeEntities es) L
      = (es.filter fun e => e.1 == L).map Prod.snd := by
    have h := normalizeGo_valsAt L es []
    rw [show valsAt ([] : List (Str × Val)) L = [] from rfl, List.nil_append] at h
    exact h
  refine ⟨hvals, ?_, ?_⟩
  · intro sv
    constructor
    · intro hf
      have h1 : (es.filter fun e => e.1 == L).map Prod.snd = [sv] := by
        rw [← hvals, valsAt_of_s hf]
      cases hfl : es.filter (fun e => e.1 == L) with
      | nil =>
        rw [hfl] at h1
        exact absurd h1 (by simp)
      | cons x xs =>
        obtain ⟨x1, x2⟩ := x
        rw [hfl, List.map_cons] at h1
        simp only [List.cons.injEq] at h1
        obtain ⟨hx2, hxs⟩ := h1
        have hxs' : xs = [] := List.map_eq_nil_iff.mp hxs
        have hxmem : (x1, x2) ∈ es.filter (fun e => e.1 == L) := by
          rw [hfl]
          exact List.mem_cons_self _ _
        have hx1 : x1 = L := by
          have hp := List.of_mem_filter hxmem
          exact beq_iff_eq.mp hp
        rw [hxs', hx1, hx2]
    · intro hfl
      have h1 : valsAt (normalizeEntities es) L = [sv] := by
        rw [hvals, hfl]
        rfl
      have hshape : ∀ l xs,
          assocFind (normalizeEntities es) l = some (Val.l xs) → 2 ≤ xs.length :=
        normalizeGo_shape es []
          (by intro l xs hx; exact Option.noConfusion hx)
      cases hf : assocFind (normalizeEntities es) L with
      | none =>
        rw [valsAt_of_none hf] at h1
        exact absurd h1 (by simp)
      | some val =>
        cases val with
        | s sv' =>
          rw [valsAt_of_s hf] at h1
          simp only [List.cons.injEq, and_true] at h1
          rw [h1]
        | l xs =>
          rw [valsAt_of_l hf] at h1
          have h2 := hshape L xs hf
          rw [h1] at h2
          simp at h2
  · have h := normalizeGo_keys es []
    rw [show (([] : List (Str × Val)).map Prod.fst) = [] from rfl] at h
    exact h

/-- Witness for C8 at a concrete entity list: the label hit twice carries
both values in order. -/
theorem normalizeEntities_spec_witness :
    valsAt (normalizeEntities [("A".data, "x".data), ("A".data, "y".data)]) "A".data
      = ["x".data, "y".data] :=
  (normalizeEntities_spec [("A".data, "x".data), ("A".data, "y".data)] "A".data).1
